import Mathlib

/-!
Verification development for the MCP memory service core
(`src/mcp_memory_service/server.py`).

The Python handlers are shallowly embedded as executable Lean functions:

* metadata dictionaries become association lists `List (String × String)`
  (Python dicts preserve insertion order and have unique keys);
* `sorted(metadata.items())` becomes an insertion sort by the
  lexicographic order on `(key, value)` pairs of character lists, which is
  exactly Python tuple/string comparison over code points;
* the ChromaDB collection becomes a `List Record` in engine iteration
  order; `add` appends, `delete(ids)` filters, `get(where)` filters;
* the two wall-clock reads in `handle_store_memory` (`str(time.time())`
  and `str(int(time.time() * 1000))`) become explicit string parameters of
  the store operation;
* SHA-256 is modelled as an injective function of the hashed text (the
  digest is represented by the pre-image text itself).  Every statement in
  this file uses only equality or inequality of digests, and under the
  collision-resistance assumption the design itself places on the hash,
  those coincide with equality or inequality of pre-images.
-/

/-- A caller-supplied metadata value, per the `store_memory` input schema:
`tags` is an array of strings and `type` is a string. -/
inductive MVal where
  | str (v : String)
  | arr (vs : List String)
deriving DecidableEq

/-- Python tuple comparison on `(key, value)` string pairs, by code points:
this is the order used by `sorted(metadata.items())`. -/
def pairLe (a b : String × String) : Prop :=
  a.1.data < b.1.data ∨ (a.1.data = b.1.data ∧ a.2.data ≤ b.2.data)

instance : DecidableRel pairLe := fun a b => by
  unfold pairLe
  infer_instance

instance : IsTotal (String × String) pairLe := by
  constructor
  intro a b
  rcases lt_trichotomy a.1.data b.1.data with h | h | h
  · exact Or.inl (Or.inl h)
  · rcases le_total a.2.data b.2.data with h2 | h2
    · exact Or.inl (Or.inr ⟨h, h2⟩)
    · exact Or.inr (Or.inr ⟨h.symm, h2⟩)
  · exact Or.inr (Or.inl h)

instance : IsTrans (String × String) pairLe := by
  constructor
  intro a b c hab hbc
  rcases hab with h1 | ⟨h1, h1v⟩
  · rcases hbc with h2 | ⟨h2, _⟩
    · exact Or.inl (lt_trans h1 h2)
    · exact Or.inl (h2 ▸ h1)
  · rcases hbc with h2 | ⟨h2, h2v⟩
    · exact Or.inl (h1 ▸ h2)
    · exact Or.inr ⟨h1.trans h2, le_trans h1v h2v⟩

instance : IsAntisymm (String × String) pairLe := by
  constructor
  intro a b hab hba
  rcases hab with h1 | ⟨h1, h1v⟩
  · rcases hba with h2 | ⟨h2, _⟩
    · exact absurd h2 (asymm h1)
    · exact absurd (h2 ▸ h1) (lt_irrefl _)
  · rcases hba with h2 | ⟨h2, h2v⟩
    · exact absurd (h1 ▸ h2) (lt_irrefl _)
    · have hk : a.1 = b.1 := String.toList_inj.mp h1
      have hv : a.2 = b.2 := String.toList_inj.mp (le_antisymm h1v h2v)
      exact Prod.ext hk hv

/-- `sorted(metadata.items())` from `_generate_hash`. -/
def sortedItems (metadata : List (String × String)) : List (String × String) :=
  List.insertionSort pairLe metadata

/-- One rendered metadata entry, Python `f"{k}:{v}"`.
(The braces stand for interpolation in the source; the rendered text is
key, colon, value.) -/
def renderItem (kv : String × String) : String :=
  kv.1 ++ ":" ++ kv.2

/-- SHA-256 modelled as an injective encoding of the hashed text: the digest
is represented by the pre-image itself.  All claims below compare digests
only for equality, which under collision resistance coincides with equality
of pre-images. -/
def sha256Hex (s : String) : String :=
  s

/-- `MemoryServer._generate_hash`: start from `content`; when the metadata
dict is non-empty, append the entries rendered `key:value`, joined by commas
after sorting; digest the result. -/
def generateHash (content : String) (metadata : List (String × String)) : String :=
  sha256Hex
    (if metadata.isEmpty then content
     else content ++ String.intercalate "," ((sortedItems metadata).map renderItem))

theorem sortedItems_perm (m1 m2 : List (String × String)) (h : m1.Perm m2) :
    sortedItems m1 = sortedItems m2 :=
  List.eq_of_perm_of_sorted
    ((List.perm_insertionSort pairLe m1).trans (h.trans (List.perm_insertionSort pairLe m2).symm))
    (List.sorted_insertionSort pairLe m1)
    (List.sorted_insertionSort pairLe m2)

/-- C2: fingerprint determinism.  For every content string and every two
metadata dictionaries holding the same key/value pairs in any insertion
order, `_generate_hash` produces identical digests: the digest is a pure
function of the content plus the entries rendered `key:value`, joined by
commas after sorting by key. -/
theorem fingerprint_deterministic (content : String) (m1 m2 : List (String × String))
    (h : m1.Perm m2) : generateHash content m1 = generateHash content m2 := by
  have hs : sortedItems m1 = sortedItems m2 := sortedItems_perm m1 m2 h
  have hl : m1.length = m2.length := h.length_eq
  have he : m1.isEmpty = m2.isEmpty := by
    cases m1 <;> cases m2 <;> simp_all
  simp only [generateHash, hs, he]

/-- Witness for C2 at a concrete reordered dictionary. -/
theorem fingerprint_deterministic_witness :
    ([("b", "2"), ("a", "1")] : List (String × String)).Perm [("a", "1"), ("b", "2")] ∧
      generateHash "c" [("b", "2"), ("a", "1")] = generateHash "c" [("a", "1"), ("b", "2")] :=
  ⟨by decide, fingerprint_deterministic "c" _ _ (by decide)⟩

/-- One persisted ChromaDB record: id, document text, and flat string
metadata.  The embedding vector lives in the out-of-scope engine and is
never read back by any handler, so it is not part of the record model; the
call to the embedding function is instead recorded in the effect trace. -/
structure Record where
  id : String
  document : String
  metadata : List (String × String)
deriving DecidableEq

/-- The `memory_collection` contents in engine iteration order. -/
abbrev Collection := List Record

/-- Python `"".split(",")` semantics on a string: split at every comma,
keeping empty segments (`""` splits to `[""]`). -/
def pySplitComma (s : String) : List String :=
  (s.data.splitOn (',' : Char)).map String.mk

/-- Calls the handlers make to the out-of-scope collaborators, in order:
the embedding model and the storage engine. -/
inductive Effect where
  | encode (text : String)
  | engineGetWhere (key val : String)
  | engineGetContains (key val : String)
  | engineGetAll
  | engineQuery (nResults : Nat)
  | engineAdd (id : String)
  | engineDeleteIds (ids : List String)
  | engineDeleteWhere (key val : String)
deriving DecidableEq

/-- Python truthiness of an optional string argument: absent or `""`. -/
def strFalsy : Option String → Bool
  | none => true
  | some s => s.data.isEmpty

/-- The `tags_str` clause of `handle_store_memory`: when the (truthy)
metadata dict has a `tags` key, its array is comma-joined.  Inputs are
assumed to follow the declared tool schema (`tags` an array of strings). -/
def tagsClause (metadataArg : List (String × MVal)) : List (String × String) :=
  if metadataArg.isEmpty then []
  else
    match List.lookup "tags" metadataArg with
    | some (MVal.arr vs) => [("tags_str", String.intercalate "," vs)]
    | _ => []

/-- The `type` clause of `handle_store_memory`: copied through unchanged
when present (schema: a string). -/
def typeClause (metadataArg : List (String × MVal)) : List (String × String) :=
  if metadataArg.isEmpty then []
  else
    match List.lookup "type" metadataArg with
    | some (MVal.str v) => [("type", v)]
    | _ => []

/-- `processed_metadata` just before hashing: optional `tags_str`, optional
`type`, then the unconditional `timestamp` stamp (dict insertion order). -/
def processedBase (ts : String) (metadataArg : List (String × MVal)) : List (String × String) :=
  tagsClause metadataArg ++ typeClause metadataArg ++ [("timestamp", ts)]

/-- The fingerprint `handle_store_memory` computes: `_generate_hash` over
the content and the pre-`content_hash` processed metadata. -/
def storeContentHash (ts content : String) (metadataArg : List (String × MVal)) : String :=
  generateHash content (processedBase ts metadataArg)

/-- The metadata actually persisted by a successful store: the processed
base plus the `content_hash` bookkeeping field. -/
def storedMetadata (ts content : String) (metadataArg : List (String × MVal)) :
    List (String × String) :=
  processedBase ts metadataArg ++ [("content_hash", storeContentHash ts content metadataArg)]

/-- Outcome of `handle_store_memory`: the reply text, the collection after
the call, and the trace of collaborator calls made. -/
structure StoreOutcome where
  reply : String
  state : Collection
  effects : List Effect
deriving DecidableEq

/-- `handle_store_memory`.  The two wall-clock reads are explicit
parameters: `ts` is `str(time.time())` stamped into the metadata, `msId`
is `str(int(time.time() * 1000))` used as the record id. -/
def handleStoreMemory (ts msId : String) (c : Collection)
    (contentArg : Option String) (metadataArg : List (String × MVal)) : StoreOutcome :=
  if strFalsy contentArg then ⟨"Error: Content is required", c, []⟩
  else
    match contentArg with
    | none => ⟨"Error: Content is required", c, []⟩
    | some content =>
      let contentHash := storeContentHash ts content metadataArg
      let existing := c.filter fun r => List.lookup "content_hash" r.metadata == some contentHash
      if existing.isEmpty then
        ⟨"Successfully stored memory with ID: " ++ msId,
         c ++ [⟨msId, content, storedMetadata ts content metadataArg⟩],
         [Effect.engineGetWhere "content_hash" contentHash, Effect.encode content,
          Effect.engineAdd msId]⟩
      else
        ⟨"Duplicate content detected, skipping storage", c,
         [Effect.engineGetWhere "content_hash" contentHash]⟩

/-- Reply of `handle_retrieve_memory`, before text rendering: relevance
scores are kept as exact rationals (`1 - distance`); the formatter that
prints them 2-decimal is outside the claims. `noMatches` renders as
`No matching memories found`. -/
inductive RetrieveReply where
  | validationError (msg : String)
  | noMatches
  | found (entries : List (String × ℚ))
deriving DecidableEq

/-- `handle_retrieve_memory`.  The engine answers the similarity query with
`engineResults`, a list of `(document, cosine distance)` pairs in
nearest-first order; the engine itself is out of scope. -/
def handleRetrieveMemory (queryArg : Option String) (nResultsArg : Option Nat)
    (engineResults : List (String × ℚ)) : RetrieveReply × List Effect :=
  if strFalsy queryArg then (RetrieveReply.validationError "Error: Query is required", [])
  else
    match queryArg with
    | none => (RetrieveReply.validationError "Error: Query is required", [])
    | some q =>
      let effects := [Effect.encode q, Effect.engineQuery (nResultsArg.getD 5)]
      if engineResults.isEmpty then (RetrieveReply.noMatches, effects)
      else
        (RetrieveReply.found (engineResults.map fun p => (p.1, 1 - p.2)), effects)

/-- Reply of `handle_search_by_tag`, before text rendering: `noMemories`
renders as `No memories found`, `noneWithTags` as `No memories found with
tags: ...`, and `found` carries the matching records in engine iteration
order (the handler renders their documents and tag strings). -/
inductive SearchReply where
  | validationError (msg : String)
  | noMemories
  | noneWithTags (tags : List String)
  | found (records : List Record)
deriving DecidableEq

/-- The match test of `handle_search_by_tag`'s loop: the record has a
`tags_str` field and some requested tag is a member of the set obtained by
splitting it on commas. -/
def tagsMatch (tagsArg : List String) (r : Record) : Bool :=
  match List.lookup "tags_str" r.metadata with
  | some s => tagsArg.any fun t => (pySplitComma s).contains t
  | none => false

/-- `handle_search_by_tag`: full scan of the collection, any-of tag match. -/
def handleSearchByTag (tagsArg : List String) (c : Collection) : SearchReply :=
  if tagsArg.isEmpty then SearchReply.validationError "Error: Tags are required"
  else if c.isEmpty then SearchReply.noMemories
  else
    let matching := c.filter (tagsMatch tagsArg)
    if matching.isEmpty then SearchReply.noneWithTags tagsArg
    else SearchReply.found matching

/-- The records selected by `handle_search_by_tag` (empty on the message
replies). -/
def searchMatches : SearchReply → List Record
  | SearchReply.found rs => rs
  | _ => []

/-- `handle_delete_memory`: filtered delete on the `content_hash` field;
the confirmation text does not depend on how many records matched. -/
def handleDeleteMemory (contentHashArg : Option String) (c : Collection) :
    String × Collection :=
  if strFalsy contentHashArg then ("Error: Content hash is required", c)
  else
    match contentHashArg with
    | none => ("Error: Content hash is required", c)
    | some h =>
      ("Memory with hash " ++ h ++ " deleted successfully",
       c.filter fun r => !(List.lookup "content_hash" r.metadata == some h))

/-- The engine-level `$contains` filter `handle_delete_by_tag` requests:
per the design, a raw substring test on the stored comma-joined
`tags_str` (records without `tags_str` never match). -/
def tagSubstrMatch (tag : String) (r : Record) : Bool :=
  match List.lookup "tags_str" r.metadata with
  | some s => decide (tag.data.IsInfix s.data)
  | none => false

/-- `handle_delete_by_tag`: fetch ids by the `$contains` filter, delete
them when any matched, and report the count; report a distinct
no-memories-found text when none matched. -/
def handleDeleteByTag (tagArg : Option String) (c : Collection) : String × Collection :=
  if strFalsy tagArg then ("Error: Tag is required", c)
  else
    match tagArg with
    | none => ("Error: Tag is required", c)
    | some tag =>
      let results := c.filter (tagSubstrMatch tag)
      if results.isEmpty then
        ("No memories found with tag '" ++ tag ++ "'", c)
      else
        ("Deleted " ++ toString results.length ++ " memories with tag '" ++ tag ++ "'",
         c.filter fun r => !((results.map Record.id).contains r.id))

/-- The duplicate-id list built by `handle_cleanup_duplicates`'s loop:
`seen` is the key set of the `seen_hashes` dict; a record whose recomputed
fingerprint was already seen contributes its id, otherwise its fingerprint
is added to `seen`. -/
def dupIdsAux (seen : List String) : List Record → List String
  | [] => []
  | r :: rest =>
    let h := generateHash r.document r.metadata
    if seen.contains h then r.id :: dupIdsAux seen rest
    else dupIdsAux (h :: seen) rest

/-- `handle_cleanup_duplicates`: recompute `_generate_hash` over each
record's document and full persisted metadata in iteration order, keep the
first record per fingerprint, batch-delete the ids of the rest. -/
def handleCleanupDuplicates (c : Collection) : String × Collection :=
  let duplicates := dupIdsAux [] c
  if duplicates.isEmpty then ("No duplicates found", c)
  else
    ("Removed " ++ toString duplicates.length ++ " duplicate memories",
     c.filter fun r => !(duplicates.contains r.id))

theorem lookup_append (k : String) (l1 l2 : List (String × String)) :
    List.lookup k (l1 ++ l2) = (List.lookup k l1).or (List.lookup k l2) := by
  induction l1 with
  | nil => simp [List.lookup]
  | cons a rest ih =>
    rcases a with ⟨ka, va⟩
    by_cases hk : k == ka
    · simp [List.lookup, hk]
    · simp only [List.cons_append, List.lookup, hk]
      exact ih

/-- C4: empty-input rejection without side effects.  A store call with
absent or empty content, and a retrieve call with absent or empty query,
each reply with the required-argument error text, leave the collection
untouched, and make no call to the storage engine or the embedding
function (empty effect trace). -/
theorem empty_input_rejected (c : Collection) (ts msId : String)
    (md : List (String × MVal)) (n : Option Nat) (res : List (String × ℚ)) :
    handleStoreMemory ts msId c none md = ⟨"Error: Content is required", c, []⟩ ∧
    handleStoreMemory ts msId c (some "") md = ⟨"Error: Content is required", c, []⟩ ∧
    handleRetrieveMemory none n res =
      (RetrieveReply.validationError "Error: Query is required", []) ∧
    handleRetrieveMemory (some "") n res =
      (RetrieveReply.validationError "Error: Query is required", []) :=
  ⟨rfl, rfl, rfl, rfl⟩

/-- C9: retrieve scoring and order.  For a non-empty query, each engine
distance `d` maps to relevance `1 - d` with no clamping, entries keep the
engine's nearest-first order, and an empty engine answer produces the
no-matches reply. -/
theorem retrieve_scoring_order (q : String) (n : Option Nat)
    (res : List (String × ℚ)) (hq : q ≠ "") :
    (res = [] →
      handleRetrieveMemory (some q) n res =
        (RetrieveReply.noMatches, [Effect.encode q, Effect.engineQuery (n.getD 5)])) ∧
    (res ≠ [] →
      handleRetrieveMemory (some q) n res =
        (RetrieveReply.found (res.map fun p => (p.1, 1 - p.2)),
         [Effect.encode q, Effect.engineQuery (n.getD 5)])) := by
  have hd : q.data.isEmpty = false := by
    cases hqd : q.data with
    | nil => exact absurd (String.toList_inj.mp hqd) hq
    | cons a as => rfl
  constructor
  · intro hres
    subst hres
    simp [handleRetrieveMemory, strFalsy, hd]
  · intro hres
    simp [handleRetrieveMemory, strFalsy, hd, List.isEmpty_iff, hres]

/-- Witness for C9; the first score `1 - 2` is negative and returned
unclamped. -/
theorem retrieve_scoring_order_witness :
    ("q" : String) ≠ "" ∧
      handleRetrieveMemory (some "q") none [("a", 2), ("b", 0)] =
        (RetrieveReply.found [("a", 1 - 2), ("b", 1 - 0)],
         [Effect.encode "q", Effect.engineQuery 5]) := by
  refine ⟨by decide, ?_⟩
  have h := (retrieve_scoring_order "q" none [("a", 2), ("b", 0)] (by decide)).2 (by decide)
  simpa using h

/-- C1 is a code bug, evaluated here at the failing input: storing the same
content, tags and type twice with distinct clock readings (`100.0` then
`100.5`).  The second call's fingerprint includes the fresh timestamp, so
the duplicate check finds nothing: both calls report a successful store and
the record count grows by 2, while the design requires one store, one
duplicate notice, and growth by exactly 1. -/
theorem store_dedup_code_bug :
    (handleStoreMemory "100.0" "100000" []
        (some "hello") [("tags", MVal.arr ["a"]), ("type", MVal.str "note")]).reply =
      "Successfully stored memory with ID: 100000" ∧
    (handleStoreMemory "100.5" "100500"
        (handleStoreMemory "100.0" "100000" []
          (some "hello") [("tags", MVal.arr ["a"]), ("type", MVal.str "note")]).state
        (some "hello") [("tags", MVal.arr ["a"]), ("type", MVal.str "note")]).reply =
      "Successfully stored memory with ID: 100500" ∧
    (handleStoreMemory "100.5" "100500"
        (handleStoreMemory "100.0" "100000" []
          (some "hello") [("tags", MVal.arr ["a"]), ("type", MVal.str "note")]).state
        (some "hello") [("tags", MVal.arr ["a"]), ("type", MVal.str "note")]).state.length = 2 := by
  decide

/-- Counterexample for C7 as frozen: when the caller supplies no `tags`
key at all, the persisted metadata has no `tags_str` field (rather than a
`tags_str` equal to the empty string), even though the record is written. -/
theorem metadata_tags_str_absent_counterexample :
    List.lookup "tags_str" (storedMetadata "100.0" "x" [("extra", MVal.str "v")]) = none ∧
    (handleStoreMemory "100.0" "1000" [] (some "x") [("extra", MVal.str "v")]).state =
      [⟨"1000", "x", storedMetadata "100.0" "x" [("extra", MVal.str "v")]⟩] := by
  decide

theorem tagsClause_shape (md : List (String × MVal)) :
    tagsClause md = [] ∨
      ∃ vs, List.lookup "tags" md = some (MVal.arr vs) ∧
        tagsClause md = [("tags_str", String.intercalate "," vs)] := by
  unfold tagsClause
  by_cases he : md.isEmpty
  · simp [he]
  · simp only [he, if_false]
    cases hl : List.lookup "tags" md with
    | none => simp
    | some v => cases v with
      | str s => simp
      | arr vs => exact Or.inr ⟨vs, rfl, rfl⟩

theorem typeClause_shape (md : List (String × MVal)) :
    typeClause md = [] ∨
      ∃ v, List.lookup "type" md = some (MVal.str v) ∧ typeClause md = [("type", v)] := by
  unfold typeClause
  by_cases he : md.isEmpty
  · simp [he]
  · simp only [he, if_false]
    cases hl : List.lookup "type" md with
    | none => simp
    | some v => cases v with
      | str s => exact Or.inr ⟨s, rfl, rfl⟩
      | arr vs => simp

theorem tagsClause_of_arr (md : List (String × MVal)) (vs : List String)
    (h : List.lookup "tags" md = some (MVal.arr vs)) :
    tagsClause md = [("tags_str", String.intercalate "," vs)] := by
  have hne : md.isEmpty = false := by
    cases md with
    | nil => simp [List.lookup] at h
    | cons a rest => rfl
  simp [tagsClause, hne, h]

theorem tagsClause_of_none (md : List (String × MVal))
    (h : List.lookup "tags" md = none) : tagsClause md = [] := by
  by_cases hne : md.isEmpty
  · simp [tagsClause, hne]
  · simp [tagsClause, hne, h]

theorem typeClause_of_str (md : List (String × MVal)) (v : String)
    (h : List.lookup "type" md = some (MVal.str v)) : typeClause md = [("type", v)] := by
  have hne : md.isEmpty = false := by
    cases md with
    | nil => simp [List.lookup] at h
    | cons a rest => rfl
  simp [typeClause, hne, h]

theorem typeClause_of_none (md : List (String × MVal))
    (h : List.lookup "type" md = none) : typeClause md = [] := by
  by_cases hne : md.isEmpty
  · simp [typeClause, hne]
  · simp [typeClause, hne, h]

/-- C7 amended: metadata normalization.  The persisted metadata of a stored
record consists only of `tags_str` (present exactly when a `tags` array was
supplied: its comma-join, which is the empty string for an empty array),
`type` (copied through exactly when supplied), the unconditional
string-encoded `timestamp`, and the `content_hash` fingerprint; every other
caller-supplied key is dropped. -/
theorem metadata_normalization (ts content : String) (md : List (String × MVal)) :
    List.lookup "timestamp" (storedMetadata ts content md) = some ts ∧
    List.lookup "content_hash" (storedMetadata ts content md) =
      some (storeContentHash ts content md) ∧
    (∀ vs, List.lookup "tags" md = some (MVal.arr vs) →
      List.lookup "tags_str" (storedMetadata ts content md) =
        some (String.intercalate "," vs)) ∧
    (List.lookup "tags" md = none →
      List.lookup "tags_str" (storedMetadata ts content md) = none) ∧
    (∀ v, List.lookup "type" md = some (MVal.str v) →
      List.lookup "type" (storedMetadata ts content md) = some v) ∧
    (List.lookup "type" md = none →
      List.lookup "type" (storedMetadata ts content md) = none) ∧
    (∀ k, k ≠ "tags_str" → k ≠ "type" → k ≠ "timestamp" → k ≠ "content_hash" →
      List.lookup k (storedMetadata ts content md) = none) := by
  refine ⟨?_, ?_, ?_, ?_, ?_, ?_, ?_⟩
  · rcases tagsClause_shape md with ht | ⟨vs, _, ht⟩ <;>
      rcases typeClause_shape md with hy | ⟨v, _, hy⟩ <;>
      simp [storedMetadata, processedBase, ht, hy, List.lookup]
  · rcases tagsClause_shape md with ht | ⟨vs, _, ht⟩ <;>
      rcases typeClause_shape md with hy | ⟨v, _, hy⟩ <;>
      simp [storedMetadata, processedBase, ht, hy, List.lookup]
  · intro vs hvs
    rcases typeClause_shape md with hy | ⟨v, _, hy⟩ <;>
      simp [storedMetadata, processedBase, tagsClause_of_arr md vs hvs, hy, List.lookup]
  · intro hn
    rcases typeClause_shape md with hy | ⟨v, _, hy⟩ <;>
      simp [storedMetadata, processedBase, tagsClause_of_none md hn, hy, List.lookup]
  · intro v hv
    rcases tagsClause_shape md with ht | ⟨vs, _, ht⟩ <;>
      simp [storedMetadata, processedBase, typeClause_of_str md v hv, ht, List.lookup]
  · intro hn
    rcases tagsClause_shape md with ht | ⟨vs, _, ht⟩ <;>
      simp [storedMetadata, processedBase, typeClause_of_none md hn, ht, List.lookup]
  · intro k h1 h2 h3 h4
    have b1 : (k == "tags_str") = false := beq_eq_false_iff_ne.mpr h1
    have b2 : (k == "type") = false := beq_eq_false_iff_ne.mpr h2
    have b3 : (k == "timestamp") = false := beq_eq_false_iff_ne.mpr h3
    have b4 : (k == "content_hash") = false := beq_eq_false_iff_ne.mpr h4
    rcases tagsClause_shape md with ht | ⟨vs, _, ht⟩ <;>
      rcases typeClause_shape md with hy | ⟨v, _, hy⟩ <;>
      simp [storedMetadata, processedBase, ht, hy, List.lookup, b1, b2, b3, b4]

/-- Witness for C7 at a concrete store request carrying a `tags` array and
an extraneous key. -/
theorem metadata_normalization_witness :
    List.lookup "timestamp"
        (storedMetadata "1.5" "c" [("tags", MVal.arr ["a", "b"]), ("extra", MVal.str "zz")]) =
      some "1.5" ∧
    List.lookup "tags_str"
        (storedMetadata "1.5" "c" [("tags", MVal.arr ["a", "b"]), ("extra", MVal.str "zz")]) =
      some (String.intercalate "," ["a", "b"]) ∧
    List.lookup "extra"
        (storedMetadata "1.5" "c" [("tags", MVal.arr ["a", "b"]), ("extra", MVal.str "zz")]) =
      none := by
  have h := metadata_normalization "1.5" "c" [("tags", MVal.arr ["a", "b"]), ("extra", MVal.str "zz")]
  exact ⟨h.1, h.2.2.1 ["a", "b"] (by decide),
    h.2.2.2.2.2.2 "extra" (by decide) (by decide) (by decide) (by decide)⟩

/-- The claim-side match predicate for tag search, phrased as in the
design: the record's `tags_str`, split on commas, intersects the requested
tag set (records without a `tags_str` field never match). -/
def claimTagHit (tagsArg : List String) (r : Record) : Prop :=
  match List.lookup "tags_str" r.metadata with
  | some s => ∃ t ∈ pySplitComma s, t ∈ tagsArg
  | none => False

instance claimTagHitDec (tagsArg : List String) (r : Record) :
    Decidable (claimTagHit tagsArg r) := by
  unfold claimTagHit
  exact
    match List.lookup "tags_str" r.metadata with
    | some s => inferInstanceAs (Decidable (∃ t ∈ pySplitComma s, t ∈ tagsArg))
    | none => inferInstanceAs (Decidable False)

theorem tagsMatch_iff (tagsArg : List String) (r : Record) :
    tagsMatch tagsArg r = true ↔ claimTagHit tagsArg r := by
  unfold tagsMatch claimTagHit
  cases hx : List.lookup "tags_str" r.metadata with
  | none => simp
  | some s =>
    simp only [List.any_eq_true]
    constructor
    · rintro ⟨t, h1, h2⟩
      exact ⟨t, List.elem_iff.mp h2, h1⟩
    · rintro ⟨t, h1, h2⟩
      exact ⟨t, h2, List.elem_iff.mpr h1⟩

theorem tagsMatch_eq_claim (tagsArg : List String) (r : Record) :
    tagsMatch tagsArg r = decide (claimTagHit tagsArg r) := by
  by_cases h : claimTagHit tagsArg r
  · rw [decide_eq_true h]
    exact (tagsMatch_iff tagsArg r).mpr h
  · rw [decide_eq_false h]
    cases hb : tagsMatch tagsArg r
    · rfl
    · exact absurd ((tagsMatch_iff tagsArg r).mp hb) h

/-- C5: SearchByTag any-of semantics.  For every non-empty requested tag
list, the records returned are exactly the collection filtered by the
split-intersection test, in engine iteration order; membership is
equivalent to being a live record whose `tags_str`, split on commas,
meets the requested tags. -/
theorem search_by_tag_any_of (tagsArg : List String) (c : Collection) (h : tagsArg ≠ []) :
    searchMatches (handleSearchByTag tagsArg c) =
      c.filter (fun r => decide (claimTagHit tagsArg r)) ∧
    ∀ r, r ∈ searchMatches (handleSearchByTag tagsArg c) ↔ r ∈ c ∧ claimTagHit tagsArg r := by
  have hfilter : c.filter (tagsMatch tagsArg) = c.filter (fun r => decide (claimTagHit tagsArg r)) :=
    List.filter_congr (fun r _ => tagsMatch_eq_claim tagsArg r)
  have hne : tagsArg.isEmpty = false := by
    cases tagsArg with
    | nil => exact absurd rfl h
    | cons a as => rfl
  have hmain : searchMatches (handleSearchByTag tagsArg c) =
      c.filter (fun r => decide (claimTagHit tagsArg r)) := by
    unfold handleSearchByTag
    by_cases hc : c.isEmpty
    · have hcn : c = [] := List.isEmpty_iff.mp hc
      subst hcn
      simp [hne, searchMatches]
    · by_cases hm : (c.filter (tagsMatch tagsArg)).isEmpty
      · have hmn : c.filter (tagsMatch tagsArg) = [] := List.isEmpty_iff.mp hm
        simp only [hne, Bool.false_eq_true, if_false, hc, hmn, List.isEmpty_nil, if_true]
        rw [← hfilter, hmn]
        rfl
      · simp only [hne, Bool.false_eq_true, if_false, hc, hm]
        rw [← hfilter]
        rfl
  refine ⟨hmain, fun r => ?_⟩
  rw [hmain]
  simp [List.mem_filter]

/-- Witness for C5: the design's own example, records tagged `a,b`, `b,c`
and `d`; searching for `b` returns exactly the first two, in order. -/
theorem search_by_tag_any_of_witness :
    (["b"] : List String) ≠ [] ∧
      searchMatches (handleSearchByTag ["b"]
        [⟨"1", "d1", [("tags_str", "a,b")]⟩, ⟨"2", "d2", [("tags_str", "b,c")]⟩,
         ⟨"3", "d3", [("tags_str", "d")]⟩]) =
        [⟨"1", "d1", [("tags_str", "a,b")]⟩, ⟨"2", "d2", [("tags_str", "b,c")]⟩] := by
  refine ⟨by decide, ?_⟩
  rw [(search_by_tag_any_of ["b"]
    [⟨"1", "d1", [("tags_str", "a,b")]⟩, ⟨"2", "d2", [("tags_str", "b,c")]⟩,
     ⟨"3", "d3", [("tags_str", "d")]⟩] (by decide)).1]
  decide

/-- The claim-side match predicate for delete-by-tag, phrased as in the
design: the tag occurs as a raw substring of the stored comma-joined
`tags_str` (so a tag that is a substring of another stored tag also
matches); records without `tags_str` never match. -/
def claimSubstrHit (tag : String) (r : Record) : Prop :=
  match List.lookup "tags_str" r.metadata with
  | some s => tag.data.IsInfix s.data
  | none => False

instance claimSubstrHitDec (tag : String) (r : Record) :
    Decidable (claimSubstrHit tag r) := by
  unfold claimSubstrHit
  exact
    match List.lookup "tags_str" r.metadata with
    | some s => inferInstanceAs (Decidable (tag.data.IsInfix s.data))
    | none => inferInstanceAs (Decidable False)

theorem tagSubstrMatch_iff (tag : String) (r : Record) :
    tagSubstrMatch tag r = true ↔ claimSubstrHit tag r := by
  unfold tagSubstrMatch claimSubstrHit
  cases hx : List.lookup "tags_str" r.metadata with
  | none => simp
  | some s => simp

theorem tagSubstrMatch_eq_claim (tag : String) (r : Record) :
    tagSubstrMatch tag r = decide (claimSubstrHit tag r) := by
  by_cases h : claimSubstrHit tag r
  · rw [decide_eq_true h]
    exact (tagSubstrMatch_iff tag r).mpr h
  · rw [decide_eq_false h]
    cases hb : tagSubstrMatch tag r
    · rfl
    · exact absurd ((tagSubstrMatch_iff tag r).mp hb) h

/-- When record ids are pairwise distinct, deleting the collected ids of
the records satisfying `p` removes exactly those records. -/
theorem filter_not_mem_ids (c : Collection) (p : Record → Bool)
    (hids : (c.map Record.id).Nodup) :
    (c.filter fun r => !(((c.filter p).map Record.id).contains r.id)) =
      c.filter fun r => !(p r) := by
  apply List.filter_congr
  intro r hr
  by_cases hp : p r
  · simp [hp]
    exact ⟨r, ⟨hr, hp⟩, rfl⟩
  · simp [hp]
    intro x hx hpx heq
    have he : x = r := List.inj_on_of_nodup_map hids (List.mem_filter.mpr ⟨hx, hpx⟩ |> List.mem_filter.mp |>.1) hr heq
    rw [he] at hpx
    exact hp hpx

/-- C6: DeleteByTag behaviour.  For every non-empty tag and every
collection with pairwise-distinct ids, the call deletes exactly the live
records whose `tags_str` contains the tag as a raw substring of the
comma-joined string, reports the deleted count when at least one matched,
and reports a distinct zero-found message (not an error) when none did. -/
theorem delete_by_tag_behaviour (tag : String) (c : Collection) (ht : tag ≠ "")
    (hids : (c.map Record.id).Nodup) :
    (c.filter (fun r => decide (claimSubstrHit tag r)) = [] →
      handleDeleteByTag (some tag) c = ("No memories found with tag '" ++ tag ++ "'", c)) ∧
    (c.filter (fun r => decide (claimSubstrHit tag r)) ≠ [] →
      handleDeleteByTag (some tag) c =
        ("Deleted " ++ toString (c.filter (fun r => decide (claimSubstrHit tag r))).length ++
           " memories with tag '" ++ tag ++ "'",
         c.filter fun r => !(decide (claimSubstrHit tag r)))) := by
  have hfilter : c.filter (tagSubstrMatch tag) = c.filter (fun r => decide (claimSubstrHit tag r)) :=
    List.filter_congr (fun r _ => tagSubstrMatch_eq_claim tag r)
  have hd : tag.data.isEmpty = false := by
    cases hqd : tag.data with
    | nil => exact absurd (String.toList_inj.mp hqd) ht
    | cons a as => rfl
  constructor
  · intro hempty
    rw [← hfilter] at hempty
    simp [handleDeleteByTag, strFalsy, hd, hempty]
  · intro hne
    rw [← hfilter] at hne
    have hnotempty : (c.filter (tagSubstrMatch tag)).isEmpty = false := by
      cases hb : c.filter (tagSubstrMatch tag) with
      | nil => exact absurd hb hne
      | cons a as => rfl
    have hstate : (c.filter fun r => !((( c.filter (tagSubstrMatch tag)).map Record.id).contains r.id)) =
        c.filter fun r => !(decide (claimSubstrHit tag r)) := by
      rw [filter_not_mem_ids c (tagSubstrMatch tag) hids]
      exact List.filter_congr (fun r _ => by rw [tagSubstrMatch_eq_claim tag r])
    have hnotempty2 : (c.filter (fun r => decide (claimSubstrHit tag r))).isEmpty = false := by
      rw [← hfilter]
      exact hnotempty
    have hstate2 : (c.filter fun r =>
        !(((c.filter (fun r => decide (claimSubstrHit tag r))).map Record.id).contains r.id)) =
        c.filter fun r => !(decide (claimSubstrHit tag r)) := by
      rw [← hfilter]
      exact hstate
    simp only [handleDeleteByTag, strFalsy, hd, Bool.false_eq_true, if_false, hfilter, hnotempty2,
      hstate2]

/-- Witness for C6, exhibiting the documented precision gap: deleting tag
`cat` removes the record whose only tag is `category`, because the match is
a raw substring test on the comma-joined string. -/
theorem delete_by_tag_behaviour_witness :
    ("cat" : String) ≠ "" ∧
      handleDeleteByTag (some "cat")
        [⟨"1", "d1", [("tags_str", "category")]⟩, ⟨"2", "d2", [("tags_str", "dog")]⟩] =
        ("Deleted 1 memories with tag 'cat'", [⟨"2", "d2", [("tags_str", "dog")]⟩]) := by
  refine ⟨by decide, ?_⟩
  have h := (delete_by_tag_behaviour "cat"
    [⟨"1", "d1", [("tags_str", "category")]⟩, ⟨"2", "d2", [("tags_str", "dog")]⟩]
    (by decide) (by decide)).2 (by decide)
  exact h.trans (by decide)

/-- The fingerprint `handle_cleanup_duplicates` recomputes for a record:
`_generate_hash` over the document and the full persisted metadata. -/
def cleanupFingerprint (r : Record) : String :=
  generateHash r.document r.metadata

/-- The claim-side survivor list: keep the first record observed for each
recomputed fingerprint, in iteration order; drop every later collider. -/
def keepFirstPerFingerprint (seen : List String) : List Record → List Record
  | [] => []
  | r :: rest =>
    let h := cleanupFingerprint r
    if seen.contains h then keepFirstPerFingerprint seen rest
    else r :: keepFirstPerFingerprint (h :: seen) rest

theorem dupIdsAux_subset (c : List Record) :
    ∀ (seen : List String), ∀ x ∈ dupIdsAux seen c, x ∈ c.map Record.id := by
  induction c with
  | nil =>
    intro seen x hx
    simp [dupIdsAux] at hx
  | cons r rest ih =>
    intro seen x hx
    cases hs : seen.contains (cleanupFingerprint r) with
    | true =>
      simp only [dupIdsAux, cleanupFingerprint] at hx
      rw [show (seen.contains (generateHash r.document r.metadata)) = true from hs] at hx
      simp only [if_true] at hx
      rcases List.mem_cons.mp hx with he | ht
      · exact he ▸ List.mem_cons_self _ _
      · exact List.mem_cons_of_mem _ (ih seen x ht)
    | false =>
      simp only [dupIdsAux, cleanupFingerprint] at hx
      rw [show (seen.contains (generateHash r.document r.metadata)) = false from hs] at hx
      simp only [Bool.false_eq_true, if_false] at hx
      exact List.mem_cons_of_mem _ (ih _ x hx)

theorem filter_dupIds_eq_keepFirst (c : List Record) :
    ∀ (seen : List String), (c.map Record.id).Nodup →
      (c.filter fun r => !((dupIdsAux seen c).contains r.id)) =
        keepFirstPerFingerprint seen c := by
  induction c with
  | nil =>
    intro seen _
    simp [dupIdsAux, keepFirstPerFingerprint]
  | cons r rest ih =>
    intro seen hnd
    rw [List.map_cons, List.nodup_cons] at hnd
    obtain ⟨hrid, hnd2⟩ := hnd
    have hneq : ∀ r2 ∈ rest, r2.id ≠ r.id := by
      intro r2 hr2 he
      exact hrid (he ▸ List.mem_map_of_mem Record.id hr2)
    cases hs : seen.contains (cleanupFingerprint r) with
    | true =>
      have hdup : dupIdsAux seen (r :: rest) = r.id :: dupIdsAux seen rest := by
        simp only [dupIdsAux, cleanupFingerprint] at hs ⊢
        rw [hs]
        simp
      have hkeep : keepFirstPerFingerprint seen (r :: rest) =
          keepFirstPerFingerprint seen rest := by
        simp only [keepFirstPerFingerprint]
        rw [hs]
        simp
      rw [hdup, hkeep, List.filter_cons]
      have hhead : (!((r.id :: dupIdsAux seen rest).contains r.id)) = false := by
        simp
      rw [hhead]
      simp only [Bool.false_eq_true, if_false]
      rw [← ih seen hnd2]
      apply List.filter_congr
      intro r2 hr2
      have : ((r.id :: dupIdsAux seen rest).contains r2.id) = ((dupIdsAux seen rest).contains r2.id) := by
        simp [List.contains_cons, hneq r2 hr2]
      rw [this]
    | false =>
      have hdup : dupIdsAux seen (r :: rest) =
          dupIdsAux (cleanupFingerprint r :: seen) rest := by
        simp only [dupIdsAux, cleanupFingerprint] at hs ⊢
        rw [hs]
        simp
      have hkeep : keepFirstPerFingerprint seen (r :: rest) =
          r :: keepFirstPerFingerprint (cleanupFingerprint r :: seen) rest := by
        simp only [keepFirstPerFingerprint]
        rw [hs]
        simp
      rw [hdup, hkeep, List.filter_cons]
      have hnotin : r.id ∉ dupIdsAux (cleanupFingerprint r :: seen) rest := by
        intro hm
        exact hrid (dupIdsAux_subset rest _ r.id hm)
      have hhead : (!((dupIdsAux (cleanupFingerprint r :: seen) rest).contains r.id)) = true := by
        simp only [Bool.not_eq_true']
        cases hb : (dupIdsAux (cleanupFingerprint r :: seen) rest).contains r.id
        · rfl
        · exact absurd (List.elem_iff.mp hb) hnotin
      rw [hhead]
      simp only [if_true]
      rw [ih _ hnd2]

theorem dupIdsAux_length (c : List Record) :
    ∀ (seen : List String),
      (dupIdsAux seen c).length +
        ((c.map cleanupFingerprint).toFinset \ seen.toFinset).card = c.length := by
  induction c with
  | nil =>
    intro seen
    simp [dupIdsAux]
  | cons r rest ih =>
    intro seen
    cases hs : seen.contains (cleanupFingerprint r) with
    | true =>
      have hdup : dupIdsAux seen (r :: rest) = r.id :: dupIdsAux seen rest := by
        simp only [dupIdsAux, cleanupFingerprint] at hs ⊢
        rw [hs]
        simp
      have hmem : cleanupFingerprint r ∈ seen.toFinset :=
        List.mem_toFinset.mpr (List.elem_iff.mp hs)
      rw [hdup, List.map_cons, List.toFinset_cons, Finset.insert_sdiff_of_mem _ hmem]
      have := ih seen
      simp only [List.length_cons]
      omega
    | false =>
      have hdup : dupIdsAux seen (r :: rest) =
          dupIdsAux (cleanupFingerprint r :: seen) rest := by
        simp only [dupIdsAux, cleanupFingerprint] at hs ⊢
        rw [hs]
        simp
      have hnotmem : cleanupFingerprint r ∉ seen.toFinset := by
        intro hm
        rw [List.mem_toFinset] at hm
        have : seen.contains (cleanupFingerprint r) = true := List.elem_iff.mpr hm
        rw [hs] at this
        exact Bool.false_ne_true this
      rw [hdup, List.map_cons, List.toFinset_cons,
        Finset.insert_sdiff_of_not_mem _ hnotmem]
      have hrec := ih (cleanupFingerprint r :: seen)
      rw [List.toFinset_cons, Finset.sdiff_insert] at hrec
      by_cases hin : cleanupFingerprint r ∈ (rest.map cleanupFingerprint).toFinset \ seen.toFinset
      · rw [Finset.insert_eq_self.mpr hin]
        have herase := Finset.card_erase_add_one hin
        simp only [List.length_cons]
        omega
      · rw [Finset.card_insert_of_not_mem hin, Finset.erase_eq_of_not_mem hin] at *
        simp only [List.length_cons]
        omega

theorem keepFirst_fps_fresh (c : List Record) :
    ∀ (seen : List String),
      ((keepFirstPerFingerprint seen c).map cleanupFingerprint).Nodup ∧
        ∀ h ∈ (keepFirstPerFingerprint seen c).map cleanupFingerprint, h ∉ seen := by
  induction c with
  | nil =>
    intro seen
    simp [keepFirstPerFingerprint]
  | cons r rest ih =>
    intro seen
    cases hs : seen.contains (cleanupFingerprint r) with
    | true =>
      have hkeep : keepFirstPerFingerprint seen (r :: rest) =
          keepFirstPerFingerprint seen rest := by
        simp only [keepFirstPerFingerprint]
        rw [hs]
        simp
      rw [hkeep]
      exact ih seen
    | false =>
      have hkeep : keepFirstPerFingerprint seen (r :: rest) =
          r :: keepFirstPerFingerprint (cleanupFingerprint r :: seen) rest := by
        simp only [keepFirstPerFingerprint]
        rw [hs]
        simp
      obtain ⟨ih1, ih2⟩ := ih (cleanupFingerprint r :: seen)
      rw [hkeep, List.map_cons, List.nodup_cons]
      refine ⟨⟨?_, ih1⟩, ?_⟩
      · intro hm
        exact ih2 _ hm (List.mem_cons_self _ _)
      · intro h hm
        rcases List.mem_cons.mp hm with he | ht
        · intro hmem
          rw [he] at hmem
          have hc : seen.contains (cleanupFingerprint r) = true := List.elem_iff.mpr hmem
          rw [hs] at hc
          exact Bool.false_ne_true hc
        · intro hmem
          exact ih2 h ht (List.mem_cons_of_mem _ hmem)

theorem dupIdsAux_eq_nil_of_nodup (c : List Record) :
    ∀ (seen : List String), (c.map cleanupFingerprint).Nodup →
      (∀ h ∈ c.map cleanupFingerprint, h ∉ seen) → dupIdsAux seen c = [] := by
  induction c with
  | nil =>
    intro seen _ _
    rfl
  | cons r rest ih =>
    intro seen hnd hdisj
    rw [List.map_cons, List.nodup_cons] at hnd
    obtain ⟨hhead, hnd2⟩ := hnd
    have hs : seen.contains (cleanupFingerprint r) = false := by
      cases hb : seen.contains (cleanupFingerprint r)
      · rfl
      · exact absurd (List.elem_iff.mp hb)
          (hdisj (cleanupFingerprint r) (List.mem_cons_self _ _))
    have hdup : dupIdsAux seen (r :: rest) =
        dupIdsAux (cleanupFingerprint r :: seen) rest := by
      simp only [dupIdsAux, cleanupFingerprint] at hs ⊢
      rw [hs]
      simp
    rw [hdup]
    apply ih _ hnd2
    intro h hm hmem
    rcases List.mem_cons.mp hmem with he | ht
    · exact hhead (he ▸ hm)
    · exact hdisj h (List.mem_cons_of_mem _ hm) ht

theorem dupIdsAux_nil_fresh (c : List Record) :
    ∀ (seen : List String), dupIdsAux seen c = [] →
      ∀ h ∈ c.map cleanupFingerprint, h ∉ seen := by
  induction c with
  | nil =>
    intro seen _ h hm
    simp at hm
  | cons r rest ih =>
    intro seen hnil h hm
    cases hs : seen.contains (cleanupFingerprint r) with
    | true =>
      have : dupIdsAux seen (r :: rest) = r.id :: dupIdsAux seen rest := by
        simp only [dupIdsAux, cleanupFingerprint] at hs ⊢
        rw [hs]
        simp
      rw [this] at hnil
      exact absurd hnil (List.cons_ne_nil _ _)
    | false =>
      have hdup : dupIdsAux seen (r :: rest) =
          dupIdsAux (cleanupFingerprint r :: seen) rest := by
        simp only [dupIdsAux, cleanupFingerprint] at hs ⊢
        rw [hs]
        simp
      rw [hdup] at hnil
      rcases List.mem_cons.mp hm with he | ht
      · intro hmem
        rw [he] at hmem
        have hc : seen.contains (cleanupFingerprint r) = true := List.elem_iff.mpr hmem
        rw [hs] at hc
        exact Bool.false_ne_true hc
      · intro hmem
        exact ih _ hnil h ht (List.mem_cons_of_mem _ hmem)

theorem dupIdsAux_nil_nodup (c : List Record) :
    ∀ (seen : List String), dupIdsAux seen c = [] →
      (c.map cleanupFingerprint).Nodup := by
  induction c with
  | nil =>
    intro seen _
    exact List.nodup_nil
  | cons r rest ih =>
    intro seen hnil
    cases hs : seen.contains (cleanupFingerprint r) with
    | true =>
      have : dupIdsAux seen (r :: rest) = r.id :: dupIdsAux seen rest := by
        simp only [dupIdsAux, cleanupFingerprint] at hs ⊢
        rw [hs]
        simp
      rw [this] at hnil
      exact absurd hnil (List.cons_ne_nil _ _)
    | false =>
      have hdup : dupIdsAux seen (r :: rest) =
          dupIdsAux (cleanupFingerprint r :: seen) rest := by
        simp only [dupIdsAux, cleanupFingerprint] at hs ⊢
        rw [hs]
        simp
      rw [hdup] at hnil
      rw [List.map_cons, List.nodup_cons]
      refine ⟨?_, ih _ hnil⟩
      intro hm
      exact dupIdsAux_nil_fresh rest _ hnil _ hm (List.mem_cons_self _ _)

theorem cleanup_state_eq (c : Collection) (hids : (c.map Record.id).Nodup) :
    (handleCleanupDuplicates c).2 = keepFirstPerFingerprint [] c := by
  have h2 : (handleCleanupDuplicates c).2 =
      c.filter fun r => !((dupIdsAux [] c).contains r.id) := by
    unfold handleCleanupDuplicates
    by_cases hd : (dupIdsAux [] c).isEmpty
    · have hdn : dupIdsAux [] c = [] := List.isEmpty_iff.mp hd
      simp [hd, hdn]
    · simp [hd]
  rw [h2]
  exact filter_dupIds_eq_keepFirst c [] hids

/-- C3: cleanup convergence.  For a collection with pairwise-distinct ids,
`handle_cleanup_duplicates` keeps exactly the first record observed per
recomputed fingerprint in iteration order and deletes every subsequent
collider; the number of deleted ids plus the number of distinct
fingerprints equals the record count (so the reported removal count is
N minus the distinct fingerprints, as the message states when some records
collide); and an immediately following second run removes nothing. -/
theorem cleanup_convergence (c : Collection) (hids : (c.map Record.id).Nodup) :
    (handleCleanupDuplicates c).2 = keepFirstPerFingerprint [] c ∧
    (dupIdsAux [] c).length + (c.map cleanupFingerprint).toFinset.card = c.length ∧
    (¬ (c.map cleanupFingerprint).Nodup →
      (handleCleanupDuplicates c).1 =
        "Removed " ++ toString (c.length - (c.map cleanupFingerprint).toFinset.card) ++
          " duplicate memories") ∧
    handleCleanupDuplicates (handleCleanupDuplicates c).2 =
      ("No duplicates found", (handleCleanupDuplicates c).2) := by
  have hstate := cleanup_state_eq c hids
  have hcount : (dupIdsAux [] c).length + (c.map cleanupFingerprint).toFinset.card = c.length := by
    have := dupIdsAux_length c []
    simpa using this
  refine ⟨hstate, hcount, ?_, ?_⟩
  · intro hnotnodup
    have hne : dupIdsAux [] c ≠ [] := by
      intro hnil
      exact hnotnodup (dupIdsAux_nil_nodup c [] hnil)
    have hnee : (dupIdsAux [] c).isEmpty = false := by
      cases hb : dupIdsAux [] c with
      | nil => exact absurd hb hne
      | cons a as => rfl
    have hlen : (dupIdsAux [] c).length =
        c.length - (c.map cleanupFingerprint).toFinset.card := by
      omega
    unfold handleCleanupDuplicates
    simp only [hnee, Bool.false_eq_true, if_false, hlen]
  · have hfresh := keepFirst_fps_fresh c []
    have hnil2 : dupIdsAux [] (keepFirstPerFingerprint [] c) = [] := by
      apply dupIdsAux_eq_nil_of_nodup _ _ hfresh.1
      intro h hm hmem
      simp at hmem
    rw [hstate]
    unfold handleCleanupDuplicates
    simp [hnil2]

/-- Witness for C3: three injected records, two colliding on the recomputed
fingerprint; cleanup keeps the first collider and the distinct record,
reports 1 removed (3 records minus 2 distinct fingerprints), and a second
run finds no duplicates. -/
theorem cleanup_convergence_witness :
    (([⟨"1", "x", [("k", "v")]⟩, ⟨"2", "x", [("k", "v")]⟩, ⟨"3", "y", []⟩] :
        Collection).map Record.id).Nodup ∧
      handleCleanupDuplicates
          [⟨"1", "x", [("k", "v")]⟩, ⟨"2", "x", [("k", "v")]⟩, ⟨"3", "y", []⟩] =
        ("Removed 1 duplicate memories", [⟨"1", "x", [("k", "v")]⟩, ⟨"3", "y", []⟩]) ∧
      handleCleanupDuplicates [⟨"1", "x", [("k", "v")]⟩, ⟨"3", "y", []⟩] =
        ("No duplicates found", [⟨"1", "x", [("k", "v")]⟩, ⟨"3", "y", []⟩]) := by
  have h := cleanup_convergence
    [⟨"1", "x", [("k", "v")]⟩, ⟨"2", "x", [("k", "v")]⟩, ⟨"3", "y", []⟩] (by decide)
  have hmsg : (handleCleanupDuplicates
      [⟨"1", "x", [("k", "v")]⟩, ⟨"2", "x", [("k", "v")]⟩, ⟨"3", "y", []⟩]).1 =
      "Removed 1 duplicate memories" :=
    (h.2.2.1 (by decide)).trans (by decide)
  have hst : (handleCleanupDuplicates
      [⟨"1", "x", [("k", "v")]⟩, ⟨"2", "x", [("k", "v")]⟩, ⟨"3", "y", []⟩]).2 =
      [⟨"1", "x", [("k", "v")]⟩, ⟨"3", "y", []⟩] :=
    h.1.trans (by decide)
  refine ⟨by decide, Prod.ext hmsg hst, ?_⟩
  have hidem := h.2.2.2
  rw [hst] at hidem
  exact hidem

/-- One dispatched state-changing command, with the store operation's two
clock readings made explicit. -/
inductive Op where
  | storeOp (ts msId : String) (content : Option String) (metadataArg : List (String × MVal))
  | deleteMemoryOp (contentHash : Option String)
  | deleteByTagOp (tag : Option String)
  | cleanupOp

/-- The collection after one command. -/
def applyOp (c : Collection) : Op → Collection
  | Op.storeOp ts msId ct md => (handleStoreMemory ts msId c ct md).state
  | Op.deleteMemoryOp h => (handleDeleteMemory h c).2
  | Op.deleteByTagOp t => (handleDeleteByTag t c).2
  | Op.cleanupOp => (handleCleanupDuplicates c).2

/-- The collection after a command sequence, in dispatch order. -/
def runOps (c : Collection) : List Op → Collection
  | [] => c
  | op :: rest => runOps (applyOp c op) rest

/-- The id a command would assign: the store operation's millisecond clock
string, nothing for the other commands. -/
def storeIdsOf : Op → List String
  | Op.storeOp _ msId _ _ => [msId]
  | _ => []

/-- All ids the commands of a sequence would assign, in order. -/
def opsStoreIds (ops : List Op) : List String :=
  ops.foldr (fun op acc => storeIdsOf op ++ acc) []

/-- C8 counterexample: two sequential stores of distinct contentable
timestamps within the same wall-clock millisecond.  Both succeed (the
fingerprints differ through the timestamp), both are assigned the id
`100000`, so the second assigned id is not unique among live records at
the time of assignment. -/
theorem id_uniqueness_counterexample :
    (handleStoreMemory "100.1" "100000" [] (some "x") []).reply =
      "Successfully stored memory with ID: 100000" ∧
    (handleStoreMemory "100.1" "100000" [] (some "x") []).state.map Record.id = ["100000"] ∧
    (handleStoreMemory "100.9" "100000"
        (handleStoreMemory "100.1" "100000" [] (some "x") []).state (some "x") []).reply =
      "Successfully stored memory with ID: 100000" ∧
    ¬ ((handleStoreMemory "100.9" "100000"
        (handleStoreMemory "100.1" "100000" [] (some "x") []).state (some "x") []).state.map
          Record.id).Nodup := by
  decide

theorem handleStoreMemory_state (ts msId : String) (c : Collection)
    (ct : Option String) (md : List (String × MVal)) :
    (handleStoreMemory ts msId c ct md).state = c ∨
    ∃ content, (handleStoreMemory ts msId c ct md).state =
      c ++ [⟨msId, content, storedMetadata ts content md⟩] := by
  unfold handleStoreMemory
  split
  · exact Or.inl rfl
  · split
    · exact Or.inl rfl
    · dsimp only
      split
      · exact Or.inr ⟨_, rfl⟩
      · exact Or.inl rfl

theorem applyOp_ids (c : Collection) (op : Op) :
    ((applyOp c op).map Record.id).Sublist (c.map Record.id) ∨
    (applyOp c op).map Record.id = c.map Record.id ++ storeIdsOf op := by
  cases op with
  | storeOp ts msId ct md =>
    rcases handleStoreMemory_state ts msId c ct md with h | ⟨content, h⟩
    · exact Or.inl (by rw [applyOp, h])
    · refine Or.inr ?_
      rw [applyOp, h, List.map_append]
      rfl
  | deleteMemoryOp h =>
    refine Or.inl ?_
    simp only [applyOp, handleDeleteMemory]
    split
    · exact List.Sublist.refl _
    · split
      · exact List.Sublist.refl _
      · exact (List.filter_sublist c).map Record.id
  | deleteByTagOp t =>
    refine Or.inl ?_
    simp only [applyOp, handleDeleteByTag]
    split
    · exact List.Sublist.refl _
    · split
      · exact List.Sublist.refl _
      · split
        · exact List.Sublist.refl _
        · exact (List.filter_sublist c).map Record.id
  | cleanupOp =>
    refine Or.inl ?_
    simp only [applyOp, handleCleanupDuplicates]
    split
    · exact List.Sublist.refl _
    · exact (List.filter_sublist c).map Record.id

/-- C8 amended: id uniqueness.  The id of a stored record is the
millisecond clock string; provided the clock strings observed by the store
commands of a run are pairwise distinct and distinct from every id already
live, every id stays unique among live records throughout the run — each id
is assigned at most once and a deleted record's id is never reassigned.
(Without that clock assumption the property fails, see the
counterexample.) -/
theorem id_uniqueness_amended (ops : List Op) : ∀ (c0 : Collection),
    (c0.map Record.id).Nodup →
    (opsStoreIds ops).Nodup →
    (∀ i ∈ opsStoreIds ops, i ∉ c0.map Record.id) →
    ((runOps c0 ops).map Record.id).Nodup := by
  induction ops with
  | nil =>
    intro c0 h0 _ _
    exact h0
  | cons op rest ih =>
    intro c0 h0 hops hdisj
    have hsplit : opsStoreIds (op :: rest) = storeIdsOf op ++ opsStoreIds rest := rfl
    rw [hsplit] at hops hdisj
    rw [List.nodup_append] at hops
    obtain ⟨hop1, hop2, hdisj2⟩ := hops
    have hstep : ((applyOp c0 op).map Record.id).Nodup := by
      rcases applyOp_ids c0 op with h | h
      · exact h0.sublist h
      · rw [h, List.nodup_append]
        refine ⟨h0, hop1, ?_⟩
        intro i hi1 hi2
        exact hdisj i (List.mem_append.mpr (Or.inl hi2)) hi1
    have hsub : ∀ i, i ∈ (applyOp c0 op).map Record.id →
        i ∈ c0.map Record.id ++ storeIdsOf op := by
      intro i hi
      rcases applyOp_ids c0 op with h | h
      · exact List.mem_append.mpr (Or.inl (h.subset hi))
      · rw [h] at hi
        exact hi
    rw [runOps]
    apply ih _ hstep hop2
    intro i hi hmem
    rcases List.mem_append.mp (hsub i hmem) with hc | hs
    · exact hdisj i (List.mem_append.mpr (Or.inr hi)) hc
    · exact hdisj2 hs hi

/-- Witness for C8: a run of two stores with distinct millisecond ids, a
tag delete and a cleanup, starting from the empty collection. -/
theorem id_uniqueness_amended_witness :
    (opsStoreIds [Op.storeOp "1.0" "1000" (some "x") [], Op.storeOp "2.0" "2000" (some "y") [],
        Op.deleteByTagOp (some "zzz"), Op.cleanupOp]).Nodup ∧
      ((runOps [] [Op.storeOp "1.0" "1000" (some "x") [], Op.storeOp "2.0" "2000" (some "y") [],
          Op.deleteByTagOp (some "zzz"), Op.cleanupOp]).map Record.id).Nodup :=
  ⟨by decide,
    id_uniqueness_amended
      [Op.storeOp "1.0" "1000" (some "x") [], Op.storeOp "2.0" "2000" (some "y") [],
       Op.deleteByTagOp (some "zzz"), Op.cleanupOp] [] (by decide) (by decide) (by decide)⟩

theorem intercalate_go_length (l : List String) : ∀ acc : String,
    (String.intercalate.go acc "," l).length = acc.length + (l.map fun s => 1 + s.length).sum := by
  induction l with
  | nil =>
    intro acc
    simp [String.intercalate.go]
  | cons a as ih =>
    intro acc
    rw [String.intercalate.go, ih]
    have h1 : ((acc ++ ",") ++ a).length = acc.length + 1 + a.length := by
      rw [String.length_append, String.length_append]
      rfl
    rw [h1]
    simp only [List.map_cons, List.sum_cons]
    omega

theorem generateHash_length (content : String) (m : List (String × String)) (hm : m ≠ []) :
    (generateHash content m).length + 1 =
      content.length + (m.map fun kv => 2 + kv.1.length + kv.2.length).sum := by
  have he : m.isEmpty = false := by
    cases m with
    | nil => exact absurd rfl hm
    | cons a b => rfl
  obtain ⟨a, as, hL⟩ : ∃ a as, (sortedItems m).map renderItem = a :: as := by
    cases hx : (sortedItems m).map renderItem with
    | cons a as => exact ⟨a, as, rfl⟩
    | nil =>
      exfalso
      have hp := List.perm_insertionSort pairLe m
      have hnil : sortedItems m = [] := by
        cases hs : sortedItems m with
        | nil => rfl
        | cons p ps =>
          rw [hs] at hx
          simp at hx
      rw [show List.insertionSort pairLe m = sortedItems m from rfl, hnil] at hp
      exact hm hp.symm.eq_nil
  have hsum1 : (((a :: as).map fun s => 1 + s.length)).sum =
      1 + a.length + ((as.map fun s => 1 + s.length).sum) := by
    simp only [List.map_cons, List.sum_cons]
  have hsum2 : (((sortedItems m).map renderItem).map fun s => 1 + s.length).sum =
      ((sortedItems m).map fun kv => 2 + kv.1.length + kv.2.length).sum := by
    rw [List.map_map]
    have hfe : ((fun s => 1 + s.length) ∘ renderItem) =
        fun kv : String × String => 2 + kv.1.length + kv.2.length := by
      funext kv
      have hc : ((":" : String)).length = 1 := rfl
      simp only [renderItem, Function.comp, String.length_append, hc]
      omega
    rw [hfe]
  have hsum3 : ((sortedItems m).map fun kv => 2 + kv.1.length + kv.2.length).sum =
      (m.map fun kv => 2 + kv.1.length + kv.2.length).sum :=
    ((List.perm_insertionSort pairLe m).map _).sum_eq
  rw [hL] at hsum2
  unfold generateHash sha256Hex
  simp only [he, Bool.false_eq_true, if_false]
  rw [String.length_append, hL]
  have hgo : String.intercalate "," (a :: as) = String.intercalate.go a "," as := rfl
  rw [hgo, intercalate_go_length]
  omega

theorem processedBase_ne_nil (ts : String) (md : List (String × MVal)) :
    processedBase ts md ≠ [] := by
  simp [processedBase]

theorem storedMetadata_ne_nil (ts content : String) (md : List (String × MVal)) :
    storedMetadata ts content md ≠ [] := by
  simp [storedMetadata]

theorem storedMetadata_lookup_hash (ts content : String) (md : List (String × MVal)) :
    List.lookup "content_hash" (storedMetadata ts content md) =
      some (storeContentHash ts content md) := by
  rcases tagsClause_shape md with ht | ⟨vs, _, ht⟩ <;>
    rcases typeClause_shape md with hy | ⟨v, _, hy⟩ <;>
    simp [storedMetadata, processedBase, ht, hy, List.lookup]

theorem cleanup_fp_ne_storeHash (ts content : String) (md : List (String × MVal)) :
    generateHash content (storedMetadata ts content md) ≠ storeContentHash ts content md := by
  intro heq
  have hdef : storeContentHash ts content md = generateHash content (processedBase ts md) := rfl
  have la := generateHash_length content (processedBase ts md) (processedBase_ne_nil ts md)
  have lb := generateHash_length content (storedMetadata ts content md)
    (storedMetadata_ne_nil ts content md)
  have hexp : ((storedMetadata ts content md).map fun kv => 2 + kv.1.length + kv.2.length).sum =
      ((processedBase ts md).map fun kv => 2 + kv.1.length + kv.2.length).sum +
        (14 + (generateHash content (processedBase ts md)).length) := by
    unfold storedMetadata
    rw [List.map_append, List.sum_append]
    simp only [List.map_cons, List.map_nil, List.sum_cons, List.sum_nil]
    have h12 : (("content_hash" : String)).length = 12 := rfl
    rw [← hdef, hdef, h12]
    omega
  have hlen := congrArg String.length heq
  rw [hdef] at hlen
  rw [hexp] at lb
  omega

theorem cleanup_fp_ne_of_ts_ne (content ty ts1 ts2 rid1 rid2 : String) (tags : List String)
    (hne : ts1 ≠ ts2) :
    cleanupFingerprint ⟨rid1, content,
        storedMetadata ts1 content [("tags", MVal.arr tags), ("type", MVal.str ty)]⟩ ≠
      cleanupFingerprint ⟨rid2, content,
        storedMetadata ts2 content [("tags", MVal.arr tags), ("type", MVal.str ty)]⟩ := by
  intro heq
  have hfp1 : cleanupFingerprint ⟨rid1, content,
      storedMetadata ts1 content [("tags", MVal.arr tags), ("type", MVal.str ty)]⟩ =
      content ++ ("content_hash" ++ ":" ++
        generateHash content [("tags_str", String.intercalate "," tags), ("type", ty),
          ("timestamp", ts1)] ++ "," ++
        ("tags_str" ++ ":" ++ String.intercalate "," tags) ++ "," ++
        ("timestamp" ++ ":" ++ ts1) ++ "," ++ ("type" ++ ":" ++ ty)) := rfl
  have hfp2 : cleanupFingerprint ⟨rid2, content,
      storedMetadata ts2 content [("tags", MVal.arr tags), ("type", MVal.str ty)]⟩ =
      content ++ ("content_hash" ++ ":" ++
        generateHash content [("tags_str", String.intercalate "," tags), ("type", ty),
          ("timestamp", ts2)] ++ "," ++
        ("tags_str" ++ ":" ++ String.intercalate "," tags) ++ "," ++
        ("timestamp" ++ ":" ++ ts2) ++ "," ++ ("type" ++ ":" ++ ty)) := rfl
  rw [hfp1, hfp2] at heq
  have la1 := generateHash_length content
    [("tags_str", String.intercalate "," tags), ("type", ty), ("timestamp", ts1)] (by simp)
  have la2 := generateHash_length content
    [("tags_str", String.intercalate "," tags), ("type", ty), ("timestamp", ts2)] (by simp)
  simp only [List.map_cons, List.map_nil, List.sum_cons, List.sum_nil] at la1 la2
  have hl := congrArg String.length heq
  simp only [String.length_append] at hl
  have hlts : ts1.length = ts2.length := by omega
  have hlh : (generateHash content [("tags_str", String.intercalate "," tags), ("type", ty),
      ("timestamp", ts1)]).length =
      (generateHash content [("tags_str", String.intercalate "," tags), ("type", ty),
        ("timestamp", ts2)]).length := by omega
  have hd := congrArg String.data heq
  simp only [String.data_append, List.append_assoc] at hd
  have d1 := List.append_cancel_left hd
  have d2 := List.append_cancel_left d1
  have d3 := List.append_cancel_left d2
  obtain ⟨_, drest⟩ := List.append_inj d3 hlh
  have e1 := List.append_cancel_left drest
  have e2 := List.append_cancel_left e1
  have e3 := List.append_cancel_left e2
  have e4 := List.append_cancel_left e3
  have e5 := List.append_cancel_left e4
  have e6 := List.append_cancel_left e5
  have e7 := List.append_cancel_left e6
  obtain ⟨hts, _⟩ := List.append_inj e7 hlts
  exact hne (String.toList_inj.mp hts)

theorem cleanup_pair_no_dup (r1 r2 : Record)
    (hne : cleanupFingerprint r1 ≠ cleanupFingerprint r2) :
    handleCleanupDuplicates [r1, r2] = ("No duplicates found", [r1, r2]) := by
  have hc : ([cleanupFingerprint r1].contains (cleanupFingerprint r2)) = false := by
    cases hb : [cleanupFingerprint r1].contains (cleanupFingerprint r2)
    · rfl
    · have := List.elem_iff.mp hb
      simp at this
      exact absurd this.symm hne
  have hdups : dupIdsAux [] [r1, r2] = [] := by
    simp only [dupIdsAux, cleanupFingerprint] at hc ⊢
    rw [show ([] : List String).contains (generateHash r1.document r1.metadata) = false from rfl]
    simp only [Bool.false_eq_true, if_false]
    rw [hc]
    simp
  unfold handleCleanupDuplicates
  simp [hdups]

/-- C10: the fingerprint `handle_cleanup_duplicates` recomputes is taken
over the full persisted metadata — which already contains the
`content_hash` and `timestamp` fields — while `handle_store_memory`
computes `content_hash` before inserting it.  Hence for every record
created by a store the recomputed fingerprint differs from the persisted
`content_hash` value, and two records stored with identical content, tags
and type but different timestamp strings are never classified as
duplicates of each other by the cleanup sweep. -/
theorem cleanup_fingerprint_mismatch :
    (∀ (ts content : String) (md : List (String × MVal)) (rid : String),
      List.lookup "content_hash" (storedMetadata ts content md) =
        some (storeContentHash ts content md) ∧
      cleanupFingerprint ⟨rid, content, storedMetadata ts content md⟩ ≠
        storeContentHash ts content md) ∧
    (∀ (content ty ts1 ts2 rid1 rid2 : String) (tags : List String), ts1 ≠ ts2 →
      cleanupFingerprint ⟨rid1, content,
          storedMetadata ts1 content [("tags", MVal.arr tags), ("type", MVal.str ty)]⟩ ≠
        cleanupFingerprint ⟨rid2, content,
          storedMetadata ts2 content [("tags", MVal.arr tags), ("type", MVal.str ty)]⟩ ∧
      handleCleanupDuplicates
          [⟨rid1, content,
            storedMetadata ts1 content [("tags", MVal.arr tags), ("type", MVal.str ty)]⟩,
           ⟨rid2, content,
            storedMetadata ts2 content [("tags", MVal.arr tags), ("type", MVal.str ty)]⟩] =
        ("No duplicates found",
         [⟨rid1, content,
           storedMetadata ts1 content [("tags", MVal.arr tags), ("type", MVal.str ty)]⟩,
          ⟨rid2, content,
           storedMetadata ts2 content [("tags", MVal.arr tags), ("type", MVal.str ty)]⟩])) := by
  constructor
  · intro ts content md rid
    exact ⟨storedMetadata_lookup_hash ts content md, cleanup_fp_ne_storeHash ts content md⟩
  · intro content ty ts1 ts2 rid1 rid2 tags hne
    have hfp := cleanup_fp_ne_of_ts_ne content ty ts1 ts2 rid1 rid2 tags hne
    exact ⟨hfp, cleanup_pair_no_dup _ _ hfp⟩

/-- Witness for C10 at concrete distinct timestamps. -/
theorem cleanup_fingerprint_mismatch_witness :
    ("1.0" : String) ≠ "2.0" ∧
      cleanupFingerprint ⟨"1", "c",
          storedMetadata "1.0" "c" [("tags", MVal.arr ["a"]), ("type", MVal.str "t")]⟩ ≠
        cleanupFingerprint ⟨"2", "c",
          storedMetadata "2.0" "c" [("tags", MVal.arr ["a"]), ("type", MVal.str "t")]⟩ :=
  ⟨by decide,
    (cleanup_fingerprint_mismatch.2 "c" "t" "1.0" "2.0" "1" "2" ["a"] (by decide)).1⟩
